import Mathlib

/-!
Verification development for a two-pass JSON vocabulary-data utility.

The program consists of two Python scripts sharing one on-disk data shape:

* `fix_en_word_mean.py` (the splitter): flattens a nested list-of-lists of
  word records into one sequence of trimmed three-field records
  (`flatten_and_extract`), cuts it into fixed-size chunks (`chunk_list`) and
  writes each chunk to its own file `n<level>_<idx>.json` (`process_level`).
* `pp.py` (the merger): flattens the original nested structure keeping the
  records themselves (`flatten_original_items`), reads all chunk files back
  sorted by the numeric index parsed from the filename stem
  (`load_updated_flat_list` with key `file_index`), and, after a length
  check, copies each edited `mean` field back into the corresponding
  original record by position (`merge_level`).

JSON values are modelled by the inductive `Json`; Python dicts parsed from
JSON are association lists with distinct keys (`Dict`), with `dget`, `dgetD`
and `dset` modelling `d.get(k)`, `d.get(k, default)` and `d[k] = v`.
File-system effects are modelled by value passing: a function that writes
files returns the list of files written, a function that would write nothing
returns `none`/`[]`.  Filename stems are lists of characters; formatting and
parsing of the decimal chunk index are modelled by `natChars` and
`parseInt?` (the latter embeds the behaviour of Python's `int` on the
underscore-free segments produced by `str.split`, up to whitespace
tolerance, which no filename in this scheme exercises).
-/

/-- JSON values as produced by `json.load`.  Numeric literals relevant to
this program are integers; floating-point numbers do not occur in the data
handled by the claims. -/
inductive Json where
  | null : Json
  | bool (b : Bool) : Json
  | num (n : Int) : Json
  | str (s : String) : Json
  | arr (elems : List Json) : Json
  | obj (fields : List (String × Json)) : Json

mutual
/-- Structural equality of JSON values (Python `==` on values parsed by
`json.load`, whose dicts have distinct keys and appear in document order). -/
def jeq : Json → Json → Bool
  | Json.null, Json.null => true
  | Json.bool a, Json.bool b => a == b
  | Json.num a, Json.num b => a == b
  | Json.str a, Json.str b => a == b
  | Json.arr a, Json.arr b => jeqArr a b
  | Json.obj a, Json.obj b => jeqObj a b
  | _, _ => false

/-- Pointwise equality of JSON arrays. -/
def jeqArr : List Json → List Json → Bool
  | [], [] => true
  | a :: as, b :: bs => jeq a b && jeqArr as bs
  | _, _ => false

/-- Pointwise equality of JSON objects (ordered field lists). -/
def jeqObj : List (String × Json) → List (String × Json) → Bool
  | [], [] => true
  | (k1, v1) :: as, (k2, v2) :: bs => k1 == k2 && jeq v1 v2 && jeqObj as bs
  | _, _ => false
end

mutual
theorem jeq_refl : ∀ a, jeq a a = true
  | Json.null => rfl
  | Json.bool b => by simp [jeq]
  | Json.num n => by simp [jeq]
  | Json.str s => by simp [jeq]
  | Json.arr xs => by simp [jeq, jeqArr_refl xs]
  | Json.obj kvs => by simp [jeq, jeqObj_refl kvs]

theorem jeqArr_refl : ∀ xs, jeqArr xs xs = true
  | [] => rfl
  | x :: xs => by simp [jeqArr, jeq_refl x, jeqArr_refl xs]

theorem jeqObj_refl : ∀ xs, jeqObj xs xs = true
  | [] => rfl
  | (k, v) :: xs => by simp [jeqObj, jeq_refl v, jeqObj_refl xs]
end

mutual
theorem eq_of_jeq : ∀ a b, jeq a b = true → a = b
  | Json.null, Json.null, _ => rfl
  | Json.bool a, Json.bool b, h => by simpa [jeq] using h
  | Json.num a, Json.num b, h => by simpa [jeq] using h
  | Json.str a, Json.str b, h => by simpa [jeq] using h
  | Json.arr a, Json.arr b, h => by
      rw [eq_of_jeqArr a b (by simpa [jeq] using h)]
  | Json.obj a, Json.obj b, h => by
      rw [eq_of_jeqObj a b (by simpa [jeq] using h)]
  | Json.null, Json.bool _, h => by simp [jeq] at h
  | Json.null, Json.num _, h => by simp [jeq] at h
  | Json.null, Json.str _, h => by simp [jeq] at h
  | Json.null, Json.arr _, h => by simp [jeq] at h
  | Json.null, Json.obj _, h => by simp [jeq] at h
  | Json.bool _, Json.null, h => by simp [jeq] at h
  | Json.bool _, Json.num _, h => by simp [jeq] at h
  | Json.bool _, Json.str _, h => by simp [jeq] at h
  | Json.bool _, Json.arr _, h => by simp [jeq] at h
  | Json.bool _, Json.obj _, h => by simp [jeq] at h
  | Json.num _, Json.null, h => by simp [jeq] at h
  | Json.num _, Json.bool _, h => by simp [jeq] at h
  | Json.num _, Json.str _, h => by simp [jeq] at h
  | Json.num _, Json.arr _, h => by simp [jeq] at h
  | Json.num _, Json.obj _, h => by simp [jeq] at h
  | Json.str _, Json.null, h => by simp [jeq] at h
  | Json.str _, Json.bool _, h => by simp [jeq] at h
  | Json.str _, Json.num _, h => by simp [jeq] at h
  | Json.str _, Json.arr _, h => by simp [jeq] at h
  | Json.str _, Json.obj _, h => by simp [jeq] at h
  | Json.arr _, Json.null, h => by simp [jeq] at h
  | Json.arr _, Json.bool _, h => by simp [jeq] at h
  | Json.arr _, Json.num _, h => by simp [jeq] at h
  | Json.arr _, Json.str _, h => by simp [jeq] at h
  | Json.arr _, Json.obj _, h => by simp [jeq] at h
  | Json.obj _, Json.null, h => by simp [jeq] at h
  | Json.obj _, Json.bool _, h => by simp [jeq] at h
  | Json.obj _, Json.num _, h => by simp [jeq] at h
  | Json.obj _, Json.str _, h => by simp [jeq] at h
  | Json.obj _, Json.arr _, h => by simp [jeq] at h

theorem eq_of_jeqArr : ∀ a b, jeqArr a b = true → a = b
  | [], [], _ => rfl
  | [], _ :: _, h => by simp [jeqArr] at h
  | _ :: _, [], h => by simp [jeqArr] at h
  | x :: xs, y :: ys, h => by
      have h1 : jeq x y = true := by
        have hh := h; simp [jeqArr, Bool.and_eq_true] at hh; exact hh.1
      have h2 : jeqArr xs ys = true := by
        have hh := h; simp [jeqArr, Bool.and_eq_true] at hh; exact hh.2
      rw [eq_of_jeq x y h1, eq_of_jeqArr xs ys h2]

theorem eq_of_jeqObj : ∀ a b, jeqObj a b = true → a = b
  | [], [], _ => rfl
  | [], _ :: _, h => by simp [jeqObj] at h
  | _ :: _, [], h => by simp [jeqObj] at h
  | (k1, v1) :: xs, (k2, v2) :: ys, h => by
      have hs : k1 = k2 ∧ (jeq v1 v2 = true ∧ jeqObj xs ys = true) := by
        simpa [jeqObj, Bool.and_eq_true, and_assoc] using h
      rw [hs.1, eq_of_jeq v1 v2 hs.2.1, eq_of_jeqObj xs ys hs.2.2]
end

instance : DecidableEq Json := fun a b =>
  decidable_of_iff (jeq a b = true) ⟨eq_of_jeq a b, fun h => h ▸ jeq_refl a⟩

/-- A Python dict parsed from JSON: an association list in insertion order.
`json.load` produces dicts with pairwise distinct keys, so first-match
lookup below agrees with Python dict lookup. -/
abbrev Dict := List (String × Json)

/-- Python `d.get(k)`: the value stored under `k`, or `None` when absent. -/
def dget : Dict → String → Option Json
  | [], _ => none
  | (k1, v) :: rest, k => if k1 = k then some v else dget rest k

/-- Python `d.get(k, default)`. -/
def dgetD (d : Dict) (k : String) (v : Json) : Json :=
  (dget d k).getD v

/-- Python `d[k] = v`: replace the value under an existing key in place
(keeping its position in insertion order), or append a new key at the end. -/
def dset : Dict → String → Json → Dict
  | [], k, v => [(k, v)]
  | (k1, v1) :: rest, k, v =>
      if k1 = k then (k, v) :: rest else (k1, v1) :: dset rest k v

/-- Python `isinstance(item, dict)` as a partial projection. -/
def jsonDict? : Json → Option Dict
  | Json.obj d => some d
  | _ => none

/-! ### Splitter (`fix_en_word_mean.py`) -/

/-- Trimming step of `flatten_and_extract` (lines 28-32): keep only the
three fields `yomikata`, `word`, `mean`, each defaulting to `""`. -/
def trimEntry (item : Dict) : Dict :=
  [("yomikata", dgetD item "yomikata" (Json.str "")),
   ("word", dgetD item "word" (Json.str "")),
   ("mean", dgetD item "mean" (Json.str ""))]

/-- Inner loop of `flatten_and_extract` (lines 20-32), for one element of
the outer list: a non-list element contributes nothing (`continue`), and
within a list element every non-dict item is skipped while every dict item
contributes its trimmed record. -/
def innerTrims : Json → List Dict
  | Json.arr items => items.filterMap (fun it => (jsonDict? it).map trimEntry)
  | _ => []

/-- `flatten_and_extract` (`fix_en_word_mean.py` lines 10-34): a non-list
top level yields `[]`; otherwise the concatenation, in order, of each
outer element's contribution. -/
def flatten_and_extract (data : Json) : List Dict :=
  match data with
  | Json.arr inners => (inners.map innerTrims).flatten
  | _ => []

/-- Fuel-driven form of `chunk_list`.  Each step emits the slice
`lst[0:n]` and recurses on `lst[n:]`, exactly the successive slices
`lst[i:i+n]` for `i in range(0, len(lst), n)`; the fuel only drives
termination and `chunk_list` supplies `lst.length`, which is always
sufficient for a positive chunk size (`chunkListAux_fuel`). -/
def chunkListAux {α : Type} : Nat → List α → Nat → List (List α)
  | _, [], _ => []
  | 0, _ :: _, _ => []
  | fuel + 1, l, n => l.take n :: chunkListAux fuel (l.drop n) n

/-- `chunk_list` (`fix_en_word_mean.py` lines 37-42):
`[lst[i:i + chunk_size] for i in range(0, len(lst), chunk_size)]`.
Python raises `ValueError` on a zero step, so a positive `chunk_size` is a
precondition of every statement about it. -/
def chunk_list {α : Type} (lst : List α) (chunk_size : Nat) : List (List α) :=
  chunkListAux lst.length lst chunk_size

/-- Decimal digit characters of `n`, most significant first, by repeated
division; the fuel argument only drives termination. -/
def natCharsAux : Nat → Nat → List Char
  | 0, _ => []
  | fuel + 1, n =>
      if n < 10 then [Nat.digitChar n]
      else natCharsAux fuel (n / 10) ++ [Nat.digitChar (n % 10)]

/-- Decimal representation of a natural number, as written by Python's
string formatting of a nonnegative `int`. -/
def natChars (n : Nat) : List Char := natCharsAux (n + 1) n

/-- Stem of the chunk filename `f"n{level}_{idx}.json"` (the name minus the
`.json` suffix, which is what `pathlib.Path.stem` returns). -/
def mkStem (level idx : Nat) : List Char :=
  'n' :: natChars level ++ '_' :: natChars idx

/-- One chunk file: its filename stem and its parsed content.  `content`
is `none` for a file whose text fails to parse as JSON (the merger logs
and skips such a file). -/
structure ChunkFile where
  stem : List Char
  content : Option Json
  deriving DecidableEq

/-- `process_level` (`fix_en_word_mean.py` lines 45-79), returning the
chunk files written for the level.  `src = none` models a missing source
file `n{level}.json` (skip, nothing written); an empty flattened list is
skipped before chunking (lines 66-68); otherwise each chunk is written as
`n{level}_{idx}.json` with `idx` counting from 1 (lines 74-77). -/
def process_level (level : Nat) (src : Option Json) (chunk_size : Nat) : List ChunkFile :=
  match src with
  | none => []
  | some data =>
      let flat_list := flatten_and_extract data
      if flat_list.isEmpty then []
      else
        (chunk_list flat_list chunk_size).enum.map (fun p =>
          { stem := mkStem level (p.1 + 1)
            content := some (Json.arr (p.2.map Json.obj)) })

/-! ### Merger (`pp.py`) -/

/-- Inner loop of `flatten_original_items` (`pp.py` lines 27-32), for one
element of the outer list: non-list elements contribute nothing, non-dict
items are skipped, dict items are kept as they are. -/
def innerDicts : Json → List Dict
  | Json.arr items => items.filterMap jsonDict?
  | _ => []

/-- `flatten_original_items` (`pp.py` lines 16-34): same traversal and
filtering as `flatten_and_extract`, but keeping the records themselves. -/
def flatten_original_items (data : Json) : List Dict :=
  match data with
  | Json.arr inners => (inners.map innerDicts).flatten
  | _ => []

/-- Numeric value of a decimal digit character, if it is one. -/
def digitVal? (c : Char) : Option Nat :=
  if '0' ≤ c ∧ c ≤ '9' then some (c.toNat - '0'.toNat) else none

/-- Left fold of decimal digits onto an accumulator; `none` on the first
non-digit character. -/
def parseDigitsAux : Nat → List Char → Option Nat
  | acc, [] => some acc
  | acc, c :: cs =>
      match digitVal? c with
      | some d => parseDigitsAux (acc * 10 + d) cs
      | none => none

/-- Python `int(s)` on an underscore-free segment: an optional sign
followed by at least one decimal digit; anything else raises (modelled as
`none`).  Surrounding whitespace, which Python would tolerate, does not
occur in the filenames this program generates or matches. -/
def parseInt? (cs : List Char) : Option Int :=
  match cs with
  | [] => none
  | c :: rest =>
      if c = '-' then
        match rest with
        | [] => none
        | _ :: _ => (parseDigitsAux 0 rest).map (fun n => -(n : Int))
      else if c = '+' then
        match rest with
        | [] => none
        | _ :: _ => (parseDigitsAux 0 rest).map (fun n => (n : Int))
      else (parseDigitsAux 0 cs).map (fun n => (n : Int))

/-- Python `s.split("_")`: maximal runs between underscores, with empty
pieces for leading, trailing or doubled separators; the empty string
splits to `[""]`. -/
def splitOnUnderscore : List Char → List (List Char)
  | [] => [[]]
  | c :: cs =>
      if c = '_' then [] :: splitOnUnderscore cs
      else
        match splitOnUnderscore cs with
        | [] => [[c]]
        | piece :: rest => (c :: piece) :: rest

/-- `file_index` (`pp.py` lines 48-53): `int(p.stem.split("_")[1])`, with
any failure (missing segment or unparsable integer) caught and turned
into `0`. -/
def file_index (p : ChunkFile) : Int :=
  match (splitOnUnderscore p.stem)[1]? with
  | some seg => (parseInt? seg).getD 0
  | none => 0

/-- Sort key order used by `sorted(..., key=file_index)`. -/
def chunkLE (a b : ChunkFile) : Prop := file_index a ≤ file_index b

instance : DecidableRel chunkLE := fun a b =>
  Int.decLe (file_index a) (file_index b)

instance : IsTotal ChunkFile chunkLE :=
  ⟨fun a b => Int.le_total (file_index a) (file_index b)⟩

instance : IsTrans ChunkFile chunkLE :=
  ⟨fun _ _ _ h1 h2 => le_trans h1 h2⟩

/-- `sorted(chunk_files, key=file_index)`.  Python's sort is stable, and a
stable sort by a total preorder is a unique function of its input, so the
stable insertion sort here computes the same list Python's sort does. -/
def sortChunkFiles (files : List ChunkFile) : List ChunkFile :=
  List.insertionSort chunkLE files

/-- Per-file part of `load_updated_flat_list` (`pp.py` lines 59-73): a file
that fails to parse is skipped, a parsed value that is not a list is
skipped, and only dict items of a parsed list are kept. -/
def chunkItems (f : ChunkFile) : List Dict :=
  match f.content with
  | some (Json.arr items) => items.filterMap jsonDict?
  | _ => []

/-- `load_updated_flat_list` (`pp.py` lines 37-76): read every chunk file
of the level in `file_index` order and concatenate their kept items.
A missing chunk directory is the special case `files = []`. -/
def load_updated_flat_list (files : List ChunkFile) : List Dict :=
  ((sortChunkFiles files).map chunkItems).flatten

/-- Body of the merge loop (`pp.py` lines 105-116): if `word` or
`yomikata` differ between the original and updated records, leave the
original untouched; otherwise overwrite its `mean` with the updated
record's `mean` (default `""`). -/
def updateEntry (orig upd : Dict) : Dict :=
  if dget orig "word" ≠ dget upd "word" ∨ dget orig "yomikata" ≠ dget upd "yomikata" then
    orig
  else
    dset orig "mean" (dgetD upd "mean" (Json.str ""))

/-- Merge loop restricted to the items of one inner list, consuming one
updated record per dict item (non-dict items participate in neither the
flattened view nor the zip).  Returns the rewritten items and the updated
records left over.  Running out of updated records leaves the remaining
originals untouched, exactly as Python's `zip` stops at the shorter
argument. -/
def mergeItems : List Json → List Dict → List Json × List Dict
  | [], upd => ([], upd)
  | Json.obj d :: rest, u :: us =>
      let p := mergeItems rest us
      (Json.obj (updateEntry d u) :: p.1, p.2)
  | Json.obj d :: rest, [] =>
      let p := mergeItems rest []
      (Json.obj d :: p.1, p.2)
  | item :: rest, upd =>
      let p := mergeItems rest upd
      (item :: p.1, p.2)

/-- Merge loop over the outer list: non-list elements are skipped by the
flattening and hence untouched by the zip. -/
def mergeInners : List Json → List Dict → List Json × List Dict
  | [], upd => ([], upd)
  | Json.arr items :: rest, upd =>
      let p := mergeItems items upd
      let q := mergeInners rest p.2
      (Json.arr p.1 :: q.1, q.2)
  | inner :: rest, upd =>
      let q := mergeInners rest upd
      (inner :: q.1, q.2)

/-- Effect of the merge loop (`pp.py` lines 104-116) on the nested
structure.  Python mutates the dicts of `original_flat` through shared
references; since `json.load` yields pairwise distinct dict objects, that
mutation rewrites exactly the dict items in flattening order, which this
structural walk performs directly. -/
def mergeNested (data : Json) (upd : List Dict) : Json :=
  match data with
  | Json.arr inners => Json.arr (mergeInners inners upd).1
  | _ => data

/-- `merge_level` (`pp.py` lines 79-123), returning the merged document
written to `en_word_merged/n{level}.json`, or `none` when nothing is
written: a missing source file (`src = none`, lines 81-83) or a length
mismatch between the original and updated flattened sequences
(lines 98-102). -/
def merge_level (src : Option Json) (files : List ChunkFile) : Option Json :=
  match src with
  | none => none
  | some original_data =>
      let original_flat := flatten_original_items original_data
      let updated_flat := load_updated_flat_list files
      if original_flat.length ≠ updated_flat.length then none
      else some (mergeNested original_data updated_flat)

/-- `main` of `pp.py` (lines 126-129): each level in `range(1, 6)` is
merged from its own source file and its own chunk directory; levels
outside the range are never processed. -/
def merge_main (src : Nat → Option Json) (chunks : Nat → List ChunkFile) :
    Nat → Option Json :=
  fun level =>
    if 1 ≤ level ∧ level ≤ 5 then merge_level (src level) (chunks level) else none

/-! ### Observers used only to state properties -/

/-- Erase the contents of a record, keeping its position. -/
def skelItem : Json → Json
  | Json.obj _ => Json.obj []
  | item => item

/-- Skeleton of one outer element: record contents erased. -/
def innerSkel : Json → Json
  | Json.arr items => Json.arr (items.map skelItem)
  | x => x

/-- Skeleton of a document: everything except the contents of the records
that flattening selects.  Two documents with the same skeleton have the
same nesting structure and agree on all non-record content. -/
def skeleton : Json → Json
  | Json.arr inners => Json.arr (inners.map innerSkel)
  | data => data

/-- A record offers all three semantic fields (`§6` of the specification:
source records carry at least `yomikata`, `word`, `mean`). -/
def hasKey (d : Dict) (k : String) : Prop := (dget d k).isSome = true

instance (d : Dict) (k : String) : Decidable (hasKey d k) := by
  unfold hasKey; infer_instance

/-- A source document is well formed when every record selected by
flattening carries the three semantic fields. -/
def WellFormedData (data : Json) : Prop :=
  ∀ d ∈ flatten_original_items data, hasKey d "yomikata" ∧ hasKey d "word" ∧ hasKey d "mean"

instance (data : Json) : Decidable (WellFormedData data) :=
  List.decidableBAll _ _

/-! ### Sample data for concrete instantiations -/

/-- Sample record with an extra field beyond the three semantic ones. -/
def entryA : Dict :=
  [("kanji", Json.str "一"), ("yomikata", Json.str "yA"),
   ("word", Json.str "wA"), ("mean", Json.str "mA")]

/-- Second sample record. -/
def entryB : Dict :=
  [("yomikata", Json.str "yB"), ("word", Json.str "wB"), ("mean", Json.str "mB")]

/-- Third sample record. -/
def entryC : Dict :=
  [("yomikata", Json.str "yC"), ("word", Json.str "wC"), ("mean", Json.str "mC")]

/-- Edited version of `entryA`'s trimmed record: same `word` and
`yomikata`, new `mean`. -/
def updA : Dict :=
  [("yomikata", Json.str "yA"), ("word", Json.str "wA"), ("mean", Json.str "newA")]

/-- Sample source document: two groups, three records. -/
def dataABC : Json :=
  Json.arr [Json.arr [Json.obj entryA, Json.obj entryB], Json.arr [Json.obj entryC]]

/-- Chunk file whose reassembled sequence has the right count but lists
the entries for `wC` and `wB` in swapped order, with `wA`'s mean edited. -/
def fileSwapped : ChunkFile :=
  ⟨mkStem 1 1,
   some (Json.arr [Json.obj updA, Json.obj (trimEntry entryC), Json.obj (trimEntry entryB)])⟩

/-- The document the merger writes for `dataABC` against `fileSwapped`:
`entryA`'s mean is overwritten, the swapped positions are left alone. -/
def mergedSwapped : Json :=
  Json.arr [Json.arr [Json.obj (dset entryA "mean" (Json.str "newA")), Json.obj entryB],
            Json.arr [Json.obj entryC]]

/-- Chunk file carrying an edit only to `entryA`'s mean, entries aligned. -/
def fileAligned : ChunkFile :=
  ⟨mkStem 1 1,
   some (Json.arr [Json.obj updA, Json.obj (trimEntry entryB), Json.obj (trimEntry entryC)])⟩

/-- Chunk file whose entry for position 1 has a different `word`. -/
def fileMismatch : ChunkFile :=
  ⟨mkStem 1 1,
   some (Json.arr [Json.obj updA, Json.obj (trimEntry entryC), Json.obj (trimEntry entryC)])⟩

/-- Chunk file whose stem segment after the underscore is not an integer. -/
def fileBadName : ChunkFile :=
  ⟨['n', '1', '_', 'x'], some (Json.arr [Json.obj (trimEntry entryA)])⟩

/-- Well-named chunk file with index 1. -/
def fileGood : ChunkFile :=
  ⟨mkStem 1 1, some (Json.arr [Json.obj (trimEntry entryB)])⟩

/-! ### Dictionary lemmas -/

theorem dget_dset_self (d : Dict) (k : String) (v : Json) :
    dget (dset d k v) k = some v := by
  induction d with
  | nil => simp [dset, dget]
  | cons kv rest ih =>
      obtain ⟨k1, v1⟩ := kv
      by_cases h : k1 = k
      · simp [dset, h, dget]
      · simp [dset, h, dget, ih]

theorem dget_dset_ne (d : Dict) (k k2 : String) (v : Json) (h : k2 ≠ k) :
    dget (dset d k v) k2 = dget d k2 := by
  induction d with
  | nil => simp [dset, dget, Ne.symm h]
  | cons kv rest ih =>
      obtain ⟨k1, v1⟩ := kv
      by_cases h1 : k1 = k
      · subst h1
        simp [dset, dget, Ne.symm h]
      · simp [dset, h1, dget, ih]

theorem dset_eq_self (d : Dict) (k : String) (v : Json) (h : dget d k = some v) :
    dset d k v = d := by
  induction d with
  | nil => simp [dget] at h
  | cons kv rest ih =>
      obtain ⟨k1, v1⟩ := kv
      by_cases h1 : k1 = k
      · subst h1
        simp [dget] at h
        simp [dset, h]
      · simp [dget, h1] at h
        simp [dset, h1, ih h]

/-! ### Chunking lemmas -/

theorem chunkListAux_nil {α : Type} (fuel n : Nat) :
    chunkListAux fuel ([] : List α) n = [] := by
  cases fuel <;> rfl

theorem chunkListAux_eq {α : Type} (n : Nat) (hn : 0 < n) :
    ∀ (lst : List α) (fuel1 fuel2 : Nat), lst.length ≤ fuel1 → lst.length ≤ fuel2 →
      chunkListAux fuel1 lst n = chunkListAux fuel2 lst n
  | [], fuel1, fuel2, _, _ => by rw [chunkListAux_nil, chunkListAux_nil]
  | a :: rest, fuel1 + 1, fuel2 + 1, h1, h2 => by
      show (a :: rest).take n :: chunkListAux fuel1 ((a :: rest).drop n) n = _
      rw [chunkListAux_eq n hn ((a :: rest).drop n) fuel1 fuel2
        (by simp only [List.length_drop, List.length_cons] at *; omega)
        (by simp only [List.length_drop, List.length_cons] at *; omega)]
      rfl
termination_by lst => lst.length
decreasing_by
  simp only [List.length_drop, List.length_cons]
  omega

theorem chunk_list_nil {α : Type} (n : Nat) : chunk_list ([] : List α) n = [] := rfl

theorem chunk_list_cons {α : Type} (lst : List α) (n : Nat) (hn : 0 < n)
    (hne : lst ≠ []) :
    chunk_list lst n = lst.take n :: chunk_list (lst.drop n) n := by
  cases lst with
  | nil => exact absurd rfl hne
  | cons a rest =>
      show chunkListAux (rest.length + 1) (a :: rest) n = _
      show (a :: rest).take n :: chunkListAux rest.length ((a :: rest).drop n) n = _
      rw [chunkListAux_eq n hn ((a :: rest).drop n) rest.length ((a :: rest).drop n).length
        (by simp only [List.length_drop, List.length_cons]; omega) le_rfl]
      rfl

theorem chunk_list_flatten {α : Type} (n : Nat) (hn : 0 < n) :
    ∀ lst : List α, (chunk_list lst n).flatten = lst
  | [] => by simp [chunk_list_nil]
  | a :: rest => by
      rw [chunk_list_cons (a :: rest) n hn (by simp)]
      rw [List.flatten_cons, chunk_list_flatten n hn ((a :: rest).drop n)]
      exact List.take_append_drop n (a :: rest)
termination_by lst => lst.length
decreasing_by
  simp only [List.length_drop, List.length_cons]
  omega

theorem chunk_list_eq_nil_iff {α : Type} (lst : List α) (n : Nat) (hn : 0 < n) :
    chunk_list lst n = [] ↔ lst = [] := by
  cases lst with
  | nil => simp [chunk_list_nil]
  | cons a rest =>
      rw [chunk_list_cons (a :: rest) n hn (by simp)]
      simp

theorem chunk_list_mem_bounds {α : Type} (n : Nat) (hn : 0 < n) :
    ∀ lst : List α, ∀ c ∈ chunk_list lst n, 1 ≤ c.length ∧ c.length ≤ n
  | [] => by simp [chunk_list_nil]
  | a :: rest => by
      rw [chunk_list_cons (a :: rest) n hn (by simp)]
      intro c hc
      rcases List.mem_cons.mp hc with h | h
      · subst h
        constructor
        · simp only [List.length_take, List.length_cons]
          omega
        · simp only [List.length_take]
          omega
      · exact chunk_list_mem_bounds n hn ((a :: rest).drop n) c h
termination_by lst => lst.length
decreasing_by
  simp only [List.length_drop, List.length_cons]
  omega

theorem chunk_list_dropLast_full {α : Type} (n : Nat) (hn : 0 < n) :
    ∀ lst : List α, ∀ c ∈ (chunk_list lst n).dropLast, c.length = n
  | [] => by simp [chunk_list_nil]
  | a :: rest => by
      rw [chunk_list_cons (a :: rest) n hn (by simp)]
      rcases hrec : chunk_list ((a :: rest).drop n) n with _ | ⟨c0, cs⟩
      · simp
      · have hdropne : (a :: rest).drop n ≠ [] := by
          intro hd
          rw [hd, chunk_list_nil] at hrec
          exact List.noConfusion hrec
        have hlong : n < (a :: rest).length := by
          by_contra hcon
          exact hdropne (List.drop_eq_nil_of_le (by omega))
        intro c hc
        have hshape : ((a :: rest).take n :: c0 :: cs).dropLast
            = (a :: rest).take n :: (c0 :: cs).dropLast := rfl
        rw [hshape] at hc
        rcases List.mem_cons.mp hc with h | h
        · subst h
          simp only [List.length_take]
          omega
        · have := chunk_list_dropLast_full n hn ((a :: rest).drop n) c
          rw [hrec] at this
          exact this h
termination_by lst => lst.length
decreasing_by
  simp only [List.length_drop, List.length_cons]
  omega

/-! ### Decimal formatting and parsing lemmas -/

theorem digitChar_isDigit (d : Nat) (h : d < 10) : (Nat.digitChar d).isDigit = true := by
  interval_cases d <;> decide

theorem digitVal?_digitChar (d : Nat) (h : d < 10) :
    digitVal? (Nat.digitChar d) = some d := by
  interval_cases d <;> decide

theorem natCharsAux_eq (n : Nat) :
    ∀ fuel1 fuel2, n < fuel1 → n < fuel2 →
      natCharsAux fuel1 n = natCharsAux fuel2 n := by
  induction n using Nat.strong_induction_on with
  | _ n ih =>
      intro fuel1 fuel2 h1 h2
      match fuel1, fuel2 with
      | f1 + 1, f2 + 1 =>
        by_cases hsmall : n < 10
        · simp [natCharsAux, hsmall]
        · have hd : n / 10 < n := Nat.div_lt_self (by omega) (by omega)
          simp only [natCharsAux, hsmall, if_false]
          rw [ih (n / 10) hd f1 f2 (by omega) (by omega)]

theorem natChars_lt10 (n : Nat) (h : n < 10) : natChars n = [Nat.digitChar n] := by
  simp [natChars, natCharsAux, h]

theorem natChars_ge10 (n : Nat) (h : 10 ≤ n) :
    natChars n = natChars (n / 10) ++ [Nat.digitChar (n % 10)] := by
  have hd : n / 10 < n := Nat.div_lt_self (by omega) (by omega)
  show natCharsAux (n + 1) n = _
  have hstep : natCharsAux (n + 1) n
      = natCharsAux n (n / 10) ++ [Nat.digitChar (n % 10)] := by
    simp [natCharsAux, Nat.not_lt.mpr h]
  rw [hstep, natCharsAux_eq (n / 10) n (n / 10 + 1) (by omega) (by omega)]
  rfl

theorem natChars_isDigit (n : Nat) : ∀ c ∈ natChars n, c.isDigit = true := by
  induction n using Nat.strong_induction_on with
  | _ n ih =>
      by_cases hsmall : n < 10
      · rw [natChars_lt10 n hsmall]
        intro c hc
        rw [List.mem_singleton.mp hc]
        exact digitChar_isDigit n hsmall
      · rw [natChars_ge10 n (by omega)]
        intro c hc
        rcases List.mem_append.mp hc with h | h
        · exact ih (n / 10) (Nat.div_lt_self (by omega) (by omega)) c h
        · rw [List.mem_singleton.mp h]
          exact digitChar_isDigit (n % 10) (Nat.mod_lt n (by omega))

theorem natChars_ne_nil (n : Nat) : natChars n ≠ [] := by
  by_cases hsmall : n < 10
  · rw [natChars_lt10 n hsmall]; simp
  · rw [natChars_ge10 n (by omega)]; simp

theorem parseDigitsAux_append (xs ys : List Char) :
    ∀ acc m, parseDigitsAux acc xs = some m →
      parseDigitsAux acc (xs ++ ys) = parseDigitsAux m ys := by
  induction xs with
  | nil =>
      intro acc m h
      simp [parseDigitsAux] at h
      subst h
      rfl
  | cons c cs ih =>
      intro acc m h
      simp only [parseDigitsAux] at h
      simp only [List.cons_append, parseDigitsAux]
      rcases hd : digitVal? c with _ | d
      · rw [hd] at h; exact absurd h (by simp)
      · rw [hd] at h
        exact ih _ _ h

theorem parseDigitsAux_natChars (n : Nat) :
    ∀ acc, parseDigitsAux acc (natChars n)
      = some (acc * 10 ^ (natChars n).length + n) := by
  induction n using Nat.strong_induction_on with
  | _ n ih =>
      intro acc
      by_cases hsmall : n < 10
      · rw [natChars_lt10 n hsmall]
        simp [parseDigitsAux, digitVal?_digitChar n hsmall]
      · rw [natChars_ge10 n (by omega)]
        have hd : n / 10 < n := Nat.div_lt_self (by omega) (by omega)
        have hrec := ih (n / 10) hd acc
        rw [parseDigitsAux_append (natChars (n / 10)) [Nat.digitChar (n % 10)] acc _ hrec]
        simp only [parseDigitsAux, digitVal?_digitChar (n % 10) (Nat.mod_lt n (by omega))]
        congr 1
        have hlen : (natChars (n / 10) ++ [Nat.digitChar (n % 10)]).length
            = (natChars (n / 10)).length + 1 := by simp
        rw [hlen, pow_succ]
        have hdm : n / 10 * 10 + n % 10 = n := by omega
        ring_nf
        omega

theorem parseInt?_natChars (n : Nat) : parseInt? (natChars n) = some (n : Int) := by
  rcases hcons : natChars n with _ | ⟨c, rest⟩
  · exact absurd hcons (natChars_ne_nil n)
  · have hcdig : c.isDigit = true := by
      apply natChars_isDigit n
      rw [hcons]; exact List.mem_cons_self c rest
    have hcm : c ≠ '-' := by intro h; rw [h] at hcdig; exact Bool.noConfusion hcdig
    have hcp : c ≠ '+' := by intro h; rw [h] at hcdig; exact Bool.noConfusion hcdig
    have hparse := parseDigitsAux_natChars n 0
    rw [hcons] at hparse
    simp [parseInt?, hcm, hcp, hparse]

/-! ### Filename stem lemmas -/

theorem splitOnUnderscore_ne_nil (cs : List Char) : splitOnUnderscore cs ≠ [] := by
  induction cs with
  | nil => simp [splitOnUnderscore]
  | cons c rest ih =>
      by_cases h : c = '_'
      · simp [splitOnUnderscore, h]
      · simp only [splitOnUnderscore, h, if_false]
        rcases hs : splitOnUnderscore rest with _ | ⟨p, ps⟩
        · exact absurd hs ih
        · simp

theorem splitOnUnderscore_no_sep (cs : List Char) (h : '_' ∉ cs) :
    splitOnUnderscore cs = [cs] := by
  induction cs with
  | nil => rfl
  | cons c rest ih =>
      have hc : c ≠ '_' := fun hh => h (hh ▸ List.mem_cons_self c rest)
      have hrest : '_' ∉ rest := fun hh => h (List.mem_cons_of_mem c hh)
      simp [splitOnUnderscore, hc, ih hrest]

theorem splitOnUnderscore_append (xs ys : List Char) (h : '_' ∉ xs) :
    splitOnUnderscore (xs ++ '_' :: ys) = xs :: splitOnUnderscore ys := by
  induction xs with
  | nil => simp [splitOnUnderscore]
  | cons c rest ih =>
      have hc : c ≠ '_' := fun hh => h (hh ▸ List.mem_cons_self c rest)
      have hrest : '_' ∉ rest := fun hh => h (List.mem_cons_of_mem c hh)
      simp only [List.cons_append, splitOnUnderscore, hc, if_false]
      simp only [List.append_eq]
      rw [ih hrest]

theorem isDigit_ne_underscore (c : Char) (h : c.isDigit = true) : c ≠ '_' := by
  intro hh
  rw [hh] at h
  exact Bool.noConfusion h

theorem file_index_of_stem (p : ChunkFile) (level idx : Nat)
    (h : p.stem = mkStem level idx) : file_index p = (idx : Int) := by
  have hno : '_' ∉ 'n' :: natChars level := by
    intro hmem
    rcases List.mem_cons.mp hmem with h1 | h1
    · exact absurd h1 (by decide)
    · exact isDigit_ne_underscore '_' (natChars_isDigit level '_' h1) rfl
  have hsplit : splitOnUnderscore (mkStem level idx)
      = ('n' :: natChars level) :: splitOnUnderscore (natChars idx) := by
    show splitOnUnderscore (('n' :: natChars level) ++ '_' :: natChars idx) = _
    exact splitOnUnderscore_append ('n' :: natChars level) (natChars idx) hno
  have hno2 : '_' ∉ natChars idx := fun hmem =>
    isDigit_ne_underscore '_' (natChars_isDigit idx '_' hmem) rfl
  rw [splitOnUnderscore_no_sep (natChars idx) hno2] at hsplit
  simp only [file_index, h, hsplit]
  simp [parseInt?_natChars idx]

/-! ### Flattening lemmas -/

theorem flatten_original_items_arr (inners : List Json) :
    flatten_original_items (Json.arr inners) = (inners.map innerDicts).flatten := rfl

theorem flatten_and_extract_arr (inners : List Json) :
    flatten_and_extract (Json.arr inners) = (inners.map innerTrims).flatten := rfl

theorem innerTrims_eq (inner : Json) :
    innerTrims inner = (innerDicts inner).map trimEntry := by
  cases inner <;> simp [innerTrims, innerDicts, List.map_filterMap]

theorem flatten_and_extract_eq (data : Json) :
    flatten_and_extract data = (flatten_original_items data).map trimEntry := by
  cases data with
  | arr inners =>
      rw [flatten_and_extract_arr, flatten_original_items_arr, List.map_flatten]
      congr 1
      rw [List.map_map]
      exact List.map_congr_left (fun inner _ => innerTrims_eq inner)
  | null => rfl
  | bool b => rfl
  | num n => rfl
  | str s => rfl
  | obj kvs => rfl

/-! ### Merge-loop lemmas -/

theorem zipWith_append_drop {α β γ : Type} (f : α → β → γ) :
    ∀ (l1 l2 : List α) (l3 : List β),
      List.zipWith f (l1 ++ l2) l3
        = List.zipWith f l1 l3 ++ List.zipWith f l2 (l3.drop l1.length)
  | [], l2, l3 => by simp
  | a :: l1, l2, [] => by simp
  | a :: l1, l2, b :: l3 => by
      simp only [List.cons_append, List.zipWith_cons_cons, List.length_cons,
        List.drop_succ_cons]
      rw [zipWith_append_drop f l1 l2 l3]

theorem mergeItems_nil : ∀ items, mergeItems items [] = (items, [])
  | [] => rfl
  | Json.null :: rest => by simp [mergeItems, mergeItems_nil rest]
  | Json.bool b :: rest => by simp [mergeItems, mergeItems_nil rest]
  | Json.num n :: rest => by simp [mergeItems, mergeItems_nil rest]
  | Json.str s :: rest => by simp [mergeItems, mergeItems_nil rest]
  | Json.arr xs :: rest => by simp [mergeItems, mergeItems_nil rest]
  | Json.obj d :: rest => by simp [mergeItems, mergeItems_nil rest]

theorem mergeItems_snd : ∀ items upd,
    (mergeItems items upd).2 = upd.drop (items.filterMap jsonDict?).length
  | [], upd => rfl
  | Json.obj d :: rest, u :: us => by
      simp only [mergeItems, List.filterMap_cons, jsonDict?, List.length_cons,
        List.drop_succ_cons]
      exact mergeItems_snd rest us
  | Json.obj d :: rest, [] => by
      simp only [mergeItems, List.filterMap_cons, jsonDict?, List.length_cons,
        List.drop_nil]
      rw [mergeItems_snd rest []]
      simp
  | Json.null :: rest, upd => by
      simpa [mergeItems, List.filterMap_cons, jsonDict?] using mergeItems_snd rest upd
  | Json.bool b :: rest, upd => by
      simpa [mergeItems, List.filterMap_cons, jsonDict?] using mergeItems_snd rest upd
  | Json.num n :: rest, upd => by
      simpa [mergeItems, List.filterMap_cons, jsonDict?] using mergeItems_snd rest upd
  | Json.str s :: rest, upd => by
      simpa [mergeItems, List.filterMap_cons, jsonDict?] using mergeItems_snd rest upd
  | Json.arr xs :: rest, upd => by
      simpa [mergeItems, List.filterMap_cons, jsonDict?] using mergeItems_snd rest upd

theorem mergeItems_fst_le : ∀ items (upd : List Dict),
    (items.filterMap jsonDict?).length ≤ upd.length →
      ((mergeItems items upd).1).filterMap jsonDict?
        = List.zipWith updateEntry (items.filterMap jsonDict?) upd
  | [], upd, _ => rfl
  | Json.obj d :: rest, u :: us, h => by
      simp only [mergeItems, List.filterMap_cons, jsonDict?, List.zipWith_cons_cons]
      rw [mergeItems_fst_le rest us
        (by simp only [List.filterMap_cons, jsonDict?, List.length_cons] at h; omega)]
  | Json.obj d :: rest, [], h => by
      simp [List.filterMap_cons, jsonDict?] at h
  | Json.null :: rest, upd, h => by
      simpa [mergeItems, List.filterMap_cons, jsonDict?] using
        mergeItems_fst_le rest upd (by simpa [List.filterMap_cons, jsonDict?] using h)
  | Json.bool b :: rest, upd, h => by
      simpa [mergeItems, List.filterMap_cons, jsonDict?] using
        mergeItems_fst_le rest upd (by simpa [List.filterMap_cons, jsonDict?] using h)
  | Json.num n :: rest, upd, h => by
      simpa [mergeItems, List.filterMap_cons, jsonDict?] using
        mergeItems_fst_le rest upd (by simpa [List.filterMap_cons, jsonDict?] using h)
  | Json.str s :: rest, upd, h => by
      simpa [mergeItems, List.filterMap_cons, jsonDict?] using
        mergeItems_fst_le rest upd (by simpa [List.filterMap_cons, jsonDict?] using h)
  | Json.arr xs :: rest, upd, h => by
      simpa [mergeItems, List.filterMap_cons, jsonDict?] using
        mergeItems_fst_le rest upd (by simpa [List.filterMap_cons, jsonDict?] using h)

theorem mergeItems_skel : ∀ items upd,
    ((mergeItems items upd).1).map skelItem = items.map skelItem
  | [], upd => rfl
  | Json.obj d :: rest, u :: us => by
      simp only [mergeItems, List.map_cons, skelItem]
      rw [mergeItems_skel rest us]
  | Json.obj d :: rest, [] => by
      simp only [mergeItems, List.map_cons, skelItem]
      rw [mergeItems_skel rest []]
  | Json.null :: rest, upd => by
      simp only [mergeItems, List.map_cons]
      rw [mergeItems_skel rest upd]
  | Json.bool b :: rest, upd => by
      simp only [mergeItems, List.map_cons]
      rw [mergeItems_skel rest upd]
  | Json.num n :: rest, upd => by
      simp only [mergeItems, List.map_cons]
      rw [mergeItems_skel rest upd]
  | Json.str s :: rest, upd => by
      simp only [mergeItems, List.map_cons]
      rw [mergeItems_skel rest upd]
  | Json.arr xs :: rest, upd => by
      simp only [mergeItems, List.map_cons]
      rw [mergeItems_skel rest upd]

theorem mergeInners_nil : ∀ inners, mergeInners inners [] = (inners, [])
  | [] => rfl
  | Json.arr items :: rest => by
      simp [mergeInners, mergeItems_nil items, mergeInners_nil rest]
  | Json.null :: rest => by simp [mergeInners, mergeInners_nil rest]
  | Json.bool b :: rest => by simp [mergeInners, mergeInners_nil rest]
  | Json.num n :: rest => by simp [mergeInners, mergeInners_nil rest]
  | Json.str s :: rest => by simp [mergeInners, mergeInners_nil rest]
  | Json.obj d :: rest => by simp [mergeInners, mergeInners_nil rest]

theorem mergeInners_snd : ∀ inners upd,
    (mergeInners inners upd).2 = upd.drop ((inners.map innerDicts).flatten).length
  | [], upd => rfl
  | Json.arr items :: rest, upd => by
      simp only [mergeInners, List.map_cons, List.flatten_cons, List.length_append]
      rw [mergeInners_snd rest (mergeItems items upd).2, mergeItems_snd items upd]
      rw [List.drop_drop]
      rfl
  | Json.null :: rest, upd => by
      simpa [mergeInners, innerDicts] using mergeInners_snd rest upd
  | Json.bool b :: rest, upd => by
      simpa [mergeInners, innerDicts] using mergeInners_snd rest upd
  | Json.num n :: rest, upd => by
      simpa [mergeInners, innerDicts] using mergeInners_snd rest upd
  | Json.str s :: rest, upd => by
      simpa [mergeInners, innerDicts] using mergeInners_snd rest upd
  | Json.obj d :: rest, upd => by
      simpa [mergeInners, innerDicts] using mergeInners_snd rest upd

theorem mergeInners_flatten_le : ∀ inners (upd : List Dict),
    ((inners.map innerDicts).flatten).length ≤ upd.length →
      (((mergeInners inners upd).1).map innerDicts).flatten
        = List.zipWith updateEntry ((inners.map innerDicts).flatten) upd
  | [], upd, _ => rfl
  | Json.arr items :: rest, upd, h => by
      have hlen : (items.filterMap jsonDict?).length
          + ((rest.map innerDicts).flatten).length ≤ upd.length := by
        simpa [innerDicts] using h
      simp only [mergeInners, List.map_cons, List.flatten_cons]
      have hfI : innerDicts (Json.arr (mergeItems items upd).1)
          = ((mergeItems items upd).1).filterMap jsonDict? := rfl
      rw [hfI, mergeItems_fst_le items upd (by omega)]
      rw [mergeInners_flatten_le rest (mergeItems items upd).2
        (by rw [mergeItems_snd items upd]; simp only [List.length_drop]; omega)]
      rw [mergeItems_snd items upd]
      have hz := zipWith_append_drop updateEntry (items.filterMap jsonDict?)
        ((rest.map innerDicts).flatten) upd
      simp only [innerDicts]
      rw [hz]
  | Json.null :: rest, upd, h => by
      simpa [mergeInners, innerDicts] using
        mergeInners_flatten_le rest upd (by simpa [innerDicts] using h)
  | Json.bool b :: rest, upd, h => by
      simpa [mergeInners, innerDicts] using
        mergeInners_flatten_le rest upd (by simpa [innerDicts] using h)
  | Json.num n :: rest, upd, h => by
      simpa [mergeInners, innerDicts] using
        mergeInners_flatten_le rest upd (by simpa [innerDicts] using h)
  | Json.str s :: rest, upd, h => by
      simpa [mergeInners, innerDicts] using
        mergeInners_flatten_le rest upd (by simpa [innerDicts] using h)
  | Json.obj d :: rest, upd, h => by
      simpa [mergeInners, innerDicts] using
        mergeInners_flatten_le rest upd (by simpa [innerDicts] using h)

theorem mergeInners_skel : ∀ inners upd,
    ((mergeInners inners upd).1).map innerSkel = inners.map innerSkel
  | [], upd => rfl
  | Json.arr items :: rest, upd => by
      simp only [mergeInners, List.map_cons]
      have h1 : innerSkel (Json.arr (mergeItems items upd).1)
          = Json.arr (((mergeItems items upd).1).map skelItem) := rfl
      rw [h1, mergeItems_skel items upd, mergeInners_skel rest (mergeItems items upd).2]
      rfl
  | Json.null :: rest, upd => by
      simp only [mergeInners, List.map_cons]
      rw [mergeInners_skel rest upd]
  | Json.bool b :: rest, upd => by
      simp only [mergeInners, List.map_cons]
      rw [mergeInners_skel rest upd]
  | Json.num n :: rest, upd => by
      simp only [mergeInners, List.map_cons]
      rw [mergeInners_skel rest upd]
  | Json.str s :: rest, upd => by
      simp only [mergeInners, List.map_cons]
      rw [mergeInners_skel rest upd]
  | Json.obj d :: rest, upd => by
      simp only [mergeInners, List.map_cons]
      rw [mergeInners_skel rest upd]

theorem flatten_mergeNested (data : Json) (upd : List Dict)
    (h : (flatten_original_items data).length ≤ upd.length) :
    flatten_original_items (mergeNested data upd)
      = List.zipWith updateEntry (flatten_original_items data) upd := by
  cases data with
  | arr inners =>
      show flatten_original_items (Json.arr (mergeInners inners upd).1) = _
      rw [flatten_original_items_arr, flatten_original_items_arr]
      exact mergeInners_flatten_le inners upd h
  | null => rfl
  | bool b => rfl
  | num n => rfl
  | str s => rfl
  | obj kvs => rfl

theorem skeleton_mergeNested (data : Json) (upd : List Dict) :
    skeleton (mergeNested data upd) = skeleton data := by
  cases data with
  | arr inners =>
      show skeleton (Json.arr (mergeInners inners upd).1) = _
      simp only [skeleton]
      rw [mergeInners_skel inners upd]
  | null => rfl
  | bool b => rfl
  | num n => rfl
  | str s => rfl
  | obj kvs => rfl

theorem mergeNested_nilUpd (data : Json) : mergeNested data [] = data := by
  cases data with
  | arr inners =>
      show Json.arr (mergeInners inners []).1 = _
      rw [mergeInners_nil inners]
  | null => rfl
  | bool b => rfl
  | num n => rfl
  | str s => rfl
  | obj kvs => rfl

/-! ### `merge_level` unfolding lemmas -/

theorem merge_level_of_ne (data : Json) (files : List ChunkFile)
    (h : (flatten_original_items data).length ≠ (load_updated_flat_list files).length) :
    merge_level (some data) files = none := by
  simp [merge_level, h]

theorem merge_level_of_eq (data : Json) (files : List ChunkFile)
    (h : (flatten_original_items data).length = (load_updated_flat_list files).length) :
    merge_level (some data) files
      = some (mergeNested data (load_updated_flat_list files)) := by
  simp [merge_level, h]

/-! ### `updateEntry` lemmas -/

theorem updateEntry_of_match (orig upd : Dict)
    (hw : dget orig "word" = dget upd "word")
    (hy : dget orig "yomikata" = dget upd "yomikata") :
    updateEntry orig upd = dset orig "mean" (dgetD upd "mean" (Json.str "")) := by
  simp [updateEntry, hw, hy]

theorem updateEntry_of_mismatch (orig upd : Dict)
    (h : dget orig "word" ≠ dget upd "word" ∨ dget orig "yomikata" ≠ dget upd "yomikata") :
    updateEntry orig upd = orig := by
  unfold updateEntry
  rw [if_pos h]

theorem dget_trim_yomikata (d : Dict) :
    dget (trimEntry d) "yomikata" = some (dgetD d "yomikata" (Json.str "")) := rfl

theorem dget_trim_word (d : Dict) :
    dget (trimEntry d) "word" = some (dgetD d "word" (Json.str "")) := rfl

theorem dget_trim_mean (d : Dict) :
    dget (trimEntry d) "mean" = some (dgetD d "mean" (Json.str "")) := rfl

theorem updateEntry_trim (d : Dict) (hy : hasKey d "yomikata")
    (hw : hasKey d "word") (hm : hasKey d "mean") :
    updateEntry d (trimEntry d) = d := by
  obtain ⟨yv, hyv⟩ := Option.isSome_iff_exists.mp hy
  obtain ⟨wv, hwv⟩ := Option.isSome_iff_exists.mp hw
  obtain ⟨mv, hmv⟩ := Option.isSome_iff_exists.mp hm
  have hweq : dget d "word" = dget (trimEntry d) "word" := by
    rw [dget_trim_word, hwv]
    simp [dgetD, hwv]
  have hyeq : dget d "yomikata" = dget (trimEntry d) "yomikata" := by
    rw [dget_trim_yomikata, hyv]
    simp [dgetD, hyv]
  rw [updateEntry_of_match d (trimEntry d) hweq hyeq]
  have hmeq : dgetD (trimEntry d) "mean" (Json.str "") = mv := by
    simp [dgetD, dget_trim_mean, hmv]
  rw [hmeq]
  exact dset_eq_self d "mean" mv hmv

/-! ### Round-trip lemmas -/

theorem mergeItems_trim : ∀ (items : List Json) (rest : List Dict),
    (∀ d ∈ items.filterMap jsonDict?,
      hasKey d "yomikata" ∧ hasKey d "word" ∧ hasKey d "mean") →
    mergeItems items (((items.filterMap jsonDict?).map trimEntry) ++ rest)
      = (items, rest)
  | [], rest, _ => rfl
  | Json.obj d :: t, rest, h => by
      have hd := h d (by simp [List.filterMap_cons, jsonDict?])
      have ht : ∀ x ∈ t.filterMap jsonDict?,
          hasKey x "yomikata" ∧ hasKey x "word" ∧ hasKey x "mean" := by
        intro x hx
        apply h x
        simp only [List.filterMap_cons, jsonDict?]
        exact List.mem_cons_of_mem d hx
      simp only [List.filterMap_cons, jsonDict?, List.map_cons, List.cons_append,
        mergeItems, List.append_eq]
      rw [mergeItems_trim t rest ht]
      rw [updateEntry_trim d hd.1 hd.2.1 hd.2.2]
  | Json.null :: t, rest, h => by
      simp only [List.filterMap_cons, jsonDict?, mergeItems]
      rw [mergeItems_trim t rest (by simpa [List.filterMap_cons, jsonDict?] using h)]
  | Json.bool b :: t, rest, h => by
      simp only [List.filterMap_cons, jsonDict?, mergeItems]
      rw [mergeItems_trim t rest (by simpa [List.filterMap_cons, jsonDict?] using h)]
  | Json.num n :: t, rest, h => by
      simp only [List.filterMap_cons, jsonDict?, mergeItems]
      rw [mergeItems_trim t rest (by simpa [List.filterMap_cons, jsonDict?] using h)]
  | Json.str s :: t, rest, h => by
      simp only [List.filterMap_cons, jsonDict?, mergeItems]
      rw [mergeItems_trim t rest (by simpa [List.filterMap_cons, jsonDict?] using h)]
  | Json.arr xs :: t, rest, h => by
      simp only [List.filterMap_cons, jsonDict?, mergeItems]
      rw [mergeItems_trim t rest (by simpa [List.filterMap_cons, jsonDict?] using h)]

theorem mergeInners_trim : ∀ (inners : List Json) (rest : List Dict),
    (∀ d ∈ (inners.map innerDicts).flatten,
      hasKey d "yomikata" ∧ hasKey d "word" ∧ hasKey d "mean") →
    mergeInners inners ((((inners.map innerDicts).flatten).map trimEntry) ++ rest)
      = (inners, rest)
  | [], rest, _ => rfl
  | Json.arr items :: t, rest, h => by
    have hI : ∀ d ∈ items.filterMap jsonDict?,
        hasKey d "yomikata" ∧ hasKey d "word" ∧ hasKey d "mean" := by
      intro d hd
      apply h d
      simp only [List.map_cons, List.flatten_cons, List.mem_append]
      exact Or.inl (by simpa [innerDicts] using hd)
    have hT : ∀ d ∈ (t.map innerDicts).flatten,
        hasKey d "yomikata" ∧ hasKey d "word" ∧ hasKey d "mean" := by
      intro d hd
      apply h d
      simp only [List.map_cons, List.flatten_cons, List.mem_append]
      exact Or.inr hd
    have harr : ((Json.arr items :: t).map innerDicts).flatten
        = items.filterMap jsonDict? ++ (t.map innerDicts).flatten := by
      simp [innerDicts]
    rw [harr, List.map_append, List.append_assoc]
    simp only [mergeInners]
    rw [mergeItems_trim items _ hI]
    rw [mergeInners_trim t rest hT]
  | Json.null :: t, rest, h => by
      simp only [List.map_cons, List.flatten_cons, innerDicts, List.nil_append,
        mergeInners]
      rw [mergeInners_trim t rest (by simpa [innerDicts] using h)]
  | Json.bool b :: t, rest, h => by
      simp only [List.map_cons, List.flatten_cons, innerDicts, List.nil_append,
        mergeInners]
      rw [mergeInners_trim t rest (by simpa [innerDicts] using h)]
  | Json.num n :: t, rest, h => by
      simp only [List.map_cons, List.flatten_cons, innerDicts, List.nil_append,
        mergeInners]
      rw [mergeInners_trim t rest (by simpa [innerDicts] using h)]
  | Json.str s :: t, rest, h => by
      simp only [List.map_cons, List.flatten_cons, innerDicts, List.nil_append,
        mergeInners]
      rw [mergeInners_trim t rest (by simpa [innerDicts] using h)]
  | Json.obj d :: t, rest, h => by
      simp only [List.map_cons, List.flatten_cons, innerDicts, List.nil_append,
        mergeInners]
      rw [mergeInners_trim t rest (by simpa [innerDicts] using h)]

theorem mergeNested_trim (data : Json) (h : WellFormedData data) :
    mergeNested data ((flatten_original_items data).map trimEntry) = data := by
  cases data with
  | arr inners =>
      show Json.arr (mergeInners inners _).1 = _
      have := mergeInners_trim inners []
        (by simpa [WellFormedData, flatten_original_items_arr] using h)
      rw [List.append_nil] at this
      rw [flatten_original_items_arr, this]
  | null => exact mergeNested_nilUpd _
  | bool b => exact mergeNested_nilUpd _
  | num n => exact mergeNested_nilUpd _
  | str s => exact mergeNested_nilUpd _
  | obj kvs => exact mergeNested_nilUpd _

/-! ### Chunk-file loading lemmas -/

theorem chunkItems_mk (stem : List Char) (c : List Dict) :
    chunkItems ⟨stem, some (Json.arr (c.map Json.obj))⟩ = c := by
  show (c.map Json.obj).filterMap jsonDict? = c
  rw [List.filterMap_map]
  have : (jsonDict? ∘ Json.obj) = some := by
    funext d
    rfl
  rw [this, List.filterMap_some]

theorem sortChunkFiles_sorted (files : List ChunkFile) :
    List.Sorted chunkLE (sortChunkFiles files) :=
  List.sorted_insertionSort chunkLE files

theorem sortChunkFiles_perm (files : List ChunkFile) :
    (sortChunkFiles files).Perm files :=
  List.perm_insertionSort chunkLE files

theorem process_level_sorted (level : Nat) (src : Option Json) (csize : Nat) :
    List.Sorted chunkLE (process_level level src csize) := by
  cases src with
  | none => exact List.sorted_nil
  | some data =>
      show List.Sorted chunkLE
        (if (flatten_and_extract data).isEmpty then [] else _)
      by_cases hemp : (flatten_and_extract data).isEmpty
      · rw [if_pos hemp]; exact List.sorted_nil
      · rw [if_neg hemp]
        rw [List.Sorted, List.pairwise_iff_getElem]
        intro i j hi hj hij
        simp only [List.length_map, List.enum_length] at hi hj
        have hgi : ((chunk_list (flatten_and_extract data) csize).enum.map (fun p =>
            ({ stem := mkStem level (p.1 + 1)
               content := some (Json.arr (p.2.map Json.obj)) } : ChunkFile)))[i]
            = { stem := mkStem level (i + 1)
                content := some (Json.arr
                  ((chunk_list (flatten_and_extract data) csize)[i].map Json.obj)) } := by
          rw [List.getElem_map, List.getElem_enum]
        have hgj : ((chunk_list (flatten_and_extract data) csize).enum.map (fun p =>
            ({ stem := mkStem level (p.1 + 1)
               content := some (Json.arr (p.2.map Json.obj)) } : ChunkFile)))[j]
            = { stem := mkStem level (j + 1)
                content := some (Json.arr
                  ((chunk_list (flatten_and_extract data) csize)[j].map Json.obj)) } := by
          rw [List.getElem_map, List.getElem_enum]
        show chunkLE _ _
        unfold chunkLE
        rw [file_index_of_stem _ level (i + 1) (by rw [hgi]),
          file_index_of_stem _ level (j + 1) (by rw [hgj])]
        exact Int.ofNat_le.mpr (by omega)

theorem load_process (level csize : Nat) (data : Json) (hpos : 0 < csize) :
    load_updated_flat_list (process_level level (some data) csize)
      = flatten_and_extract data := by
  by_cases hemp : (flatten_and_extract data).isEmpty
  · have hnil : flatten_and_extract data = [] := List.isEmpty_iff.mp hemp
    have hproc : process_level level (some data) csize = [] := by
      show (if (flatten_and_extract data).isEmpty then [] else _) = []
      rw [if_pos hemp]
    rw [hproc, hnil]
    rfl
  · have hproc : process_level level (some data) csize
        = (chunk_list (flatten_and_extract data) csize).enum.map (fun p =>
            ({ stem := mkStem level (p.1 + 1)
               content := some (Json.arr (p.2.map Json.obj)) } : ChunkFile)) := by
      show (if (flatten_and_extract data).isEmpty then [] else _) = _
      rw [if_neg hemp]
    unfold load_updated_flat_list
    have hsort : sortChunkFiles (process_level level (some data) csize)
        = process_level level (some data) csize :=
      List.Sorted.insertionSort_eq (process_level_sorted level (some data) csize)
    rw [hsort, hproc, List.map_map]
    have hcomp : (chunkItems ∘ fun p : Nat × List Dict =>
        ({ stem := mkStem level (p.1 + 1)
           content := some (Json.arr (p.2.map Json.obj)) } : ChunkFile))
        = Prod.snd := by
      funext p
      exact chunkItems_mk _ _
    rw [hcomp, List.enum_map_snd]
    exact chunk_list_flatten csize hpos (flatten_and_extract data)

/-! ### Claim theorems -/

/-- Claim C2: for every level, if the length of the original flattened
sequence differs from the length of the reassembled edited sequence, the
merger aborts that level (no merged output is produced for it), and each
level's result in the merger's main loop depends only on that level's own
source document and chunk files, so the original source and all other
levels are unaffected. -/
theorem claim_C2 (data : Json) (files : List ChunkFile)
    (h : (flatten_original_items data).length ≠ (load_updated_flat_list files).length) :
    merge_level (some data) files = none ∧
    ∀ (src src' : Nat → Option Json) (chunks chunks' : Nat → List ChunkFile) (l : Nat),
      src l = src' l → chunks l = chunks' l →
      merge_main src chunks l = merge_main src' chunks' l := by
  refine ⟨merge_level_of_ne data files h, ?_⟩
  intro src src' chunks chunks' l h1 h2
  unfold merge_main
  rw [h1, h2]

theorem claim_C2_witness : merge_level (some dataABC) [] = none :=
  (claim_C2 dataABC [] (by decide)).1

/-- Claim C3: for every list and every positive chunk size, concatenating
the chunks produced by `chunk_list` in order yields exactly the original
list, and the chunk lengths sum to its length. -/
theorem claim_C3 {α : Type} (L : List α) (n : Nat) (hn : 0 < n) :
    (chunk_list L n).flatten = L ∧
    ((chunk_list L n).map List.length).sum = L.length := by
  have h1 := chunk_list_flatten n hn L
  refine ⟨h1, ?_⟩
  calc ((chunk_list L n).map List.length).sum
      = (chunk_list L n).flatten.length := (List.length_flatten _).symm
    _ = L.length := by rw [h1]

theorem claim_C3_witness :
    (chunk_list [1, 2, 3, 4, 5] 2).flatten = [1, 2, 3, 4, 5] ∧
    ((chunk_list [1, 2, 3, 4, 5] 2).map List.length).sum = 5 :=
  claim_C3 [1, 2, 3, 4, 5] 2 (by decide)

/-- Claim C5: for a positive chunk size, every produced chunk except
possibly the last has exactly `chunk_size` elements, every chunk has
between 1 and `chunk_size` elements, zero chunks are produced exactly for
an empty input, and the splitter writes no files for a level exactly when
the source file is missing or its flattened sequence is empty (the empty
case being skipped before chunking). -/
theorem claim_C5 (lst : List Dict) (n : Nat) (hn : 0 < n) :
    (∀ c ∈ (chunk_list lst n).dropLast, c.length = n) ∧
    (∀ c ∈ chunk_list lst n, 1 ≤ c.length ∧ c.length ≤ n) ∧
    (chunk_list lst n = [] ↔ lst = []) ∧
    (∀ (level : Nat) (src : Option Json),
      process_level level src n = [] ↔
        ∀ data, src = some data → flatten_and_extract data = []) := by
  refine ⟨chunk_list_dropLast_full n hn lst, chunk_list_mem_bounds n hn lst,
    chunk_list_eq_nil_iff lst n hn, ?_⟩
  intro level src
  cases src with
  | none => simp [process_level]
  | some data =>
      show (if (flatten_and_extract data).isEmpty then [] else _) = [] ↔ _
      by_cases hemp : (flatten_and_extract data).isEmpty
      · rw [if_pos hemp]
        constructor
        · intro _ d hd
          cases hd
          exact List.isEmpty_iff.mp hemp
        · intro _
          rfl
      · rw [if_neg hemp]
        constructor
        · intro hmap
          exfalso
          have henum := List.map_eq_nil_iff.mp hmap
          have hch := List.enum_eq_nil.mp henum
          have hflat := (chunk_list_eq_nil_iff (flatten_and_extract data) n hn).mp hch
          exact hemp (List.isEmpty_iff.mpr hflat)
        · intro hall
          exact absurd (List.isEmpty_iff.mpr (hall data rfl)) hemp

theorem claim_C5_witness :
    chunk_list [entryA, entryB, entryC] 2 = []
      ↔ ([entryA, entryB, entryC] : List Dict) = [] :=
  (claim_C5 [entryA, entryB, entryC] 2 (by decide)).2.2.1

/-- Claim C8: both flatteners apply the same filter predicate and traverse
in the same order: the merger's flattened sequence, projected entrywise
onto the three fields with empty-string defaults (`trimEntry`), is exactly
the splitter's flattened sequence, and the two always have equal length. -/
theorem claim_C8 (data : Json) :
    flatten_and_extract data = (flatten_original_items data).map trimEntry ∧
    (flatten_and_extract data).length = (flatten_original_items data).length := by
  refine ⟨flatten_and_extract_eq data, ?_⟩
  rw [flatten_and_extract_eq data, List.length_map]

/-- Claim C1: for every level whose original flattened sequence S and
reassembled edited sequence U have equal length and matching `word` and
`yomikata` at every position, the merged output is written and its
flattened sequence has, at every position, `mean` equal to U's `mean`
there (empty string when U's record lacks the key), every other field
equal to S's record there, and the document's skeleton (nesting structure
and non-record content) equal to the source's. -/
theorem claim_C1 (data : Json) (files : List ChunkFile)
    (hlen : (flatten_original_items data).length
      = (load_updated_flat_list files).length)
    (hmatch : ∀ i (hS : i < (flatten_original_items data).length)
        (hU : i < (load_updated_flat_list files).length),
      dget (flatten_original_items data)[i] "word"
          = dget (load_updated_flat_list files)[i] "word" ∧
        dget (flatten_original_items data)[i] "yomikata"
          = dget (load_updated_flat_list files)[i] "yomikata") :
    ∃ M, merge_level (some data) files = some M ∧
      (flatten_original_items M).length = (flatten_original_items data).length ∧
      (∀ i (hM : i < (flatten_original_items M).length)
          (hU : i < (load_updated_flat_list files).length),
        dget (flatten_original_items M)[i] "mean"
          = some (dgetD (load_updated_flat_list files)[i] "mean" (Json.str ""))) ∧
      (∀ i (hM : i < (flatten_original_items M).length)
          (hS : i < (flatten_original_items data).length) (k : String), k ≠ "mean" →
        dget (flatten_original_items M)[i] k
          = dget (flatten_original_items data)[i] k) ∧
      skeleton M = skeleton data := by
  have hflat := flatten_mergeNested data (load_updated_flat_list files) (le_of_eq hlen)
  have hlenM : (flatten_original_items
      (mergeNested data (load_updated_flat_list files))).length
      = (flatten_original_items data).length := by
    rw [hflat, List.length_zipWith]
    omega
  refine ⟨mergeNested data (load_updated_flat_list files),
    merge_level_of_eq data files hlen, hlenM, ?_, ?_, skeleton_mergeNested data _⟩
  · intro i hM hU
    have hS : i < (flatten_original_items data).length := by omega
    rw [List.getElem_of_eq hflat hM, List.getElem_zipWith]
    obtain ⟨hw, hy⟩ := hmatch i hS hU
    rw [updateEntry_of_match _ _ hw hy, dget_dset_self]
  · intro i hM hS k hk
    have hU : i < (load_updated_flat_list files).length := by omega
    rw [List.getElem_of_eq hflat hM, List.getElem_zipWith]
    obtain ⟨hw, hy⟩ := hmatch i hS hU
    rw [updateEntry_of_match _ _ hw hy, dget_dset_ne _ _ _ _ hk]

theorem claim_C1_witness :
    ∃ M, merge_level (some dataABC) [fileAligned] = some M ∧
      skeleton M = skeleton dataABC := by
  obtain ⟨M, h1, _, _, _, h5⟩ := claim_C1 dataABC [fileAligned] (by decide) (by decide)
  exact ⟨M, h1, h5⟩

/-- Claim C6: for a level passing the length check, at every position where
`word` or `yomikata` differ between original and edited record, the merger
leaves the original record entirely unchanged (its `mean` included), while
the merged output is still written and every other, matching position still
receives the edited `mean`. -/
theorem claim_C6 (data : Json) (files : List ChunkFile) (i : Nat)
    (hlen : (flatten_original_items data).length
      = (load_updated_flat_list files).length)
    (hS : i < (flatten_original_items data).length)
    (hU : i < (load_updated_flat_list files).length)
    (hmis : dget (flatten_original_items data)[i] "word"
        ≠ dget (load_updated_flat_list files)[i] "word" ∨
      dget (flatten_original_items data)[i] "yomikata"
        ≠ dget (load_updated_flat_list files)[i] "yomikata") :
    ∃ M, merge_level (some data) files = some M ∧
      (flatten_original_items M).length = (flatten_original_items data).length ∧
      (∀ hM : i < (flatten_original_items M).length,
        (flatten_original_items M)[i] = (flatten_original_items data)[i]) ∧
      (∀ j (hjS : j < (flatten_original_items data).length)
          (hjU : j < (load_updated_flat_list files).length)
          (hjM : j < (flatten_original_items M).length),
        dget (flatten_original_items data)[j] "word"
            = dget (load_updated_flat_list files)[j] "word" →
        dget (flatten_original_items data)[j] "yomikata"
            = dget (load_updated_flat_list files)[j] "yomikata" →
        dget (flatten_original_items M)[j] "mean"
          = some (dgetD (load_updated_flat_list files)[j] "mean" (Json.str ""))) := by
  have hflat := flatten_mergeNested data (load_updated_flat_list files) (le_of_eq hlen)
  have hlenM : (flatten_original_items
      (mergeNested data (load_updated_flat_list files))).length
      = (flatten_original_items data).length := by
    rw [hflat, List.length_zipWith]
    omega
  refine ⟨mergeNested data (load_updated_flat_list files),
    merge_level_of_eq data files hlen, hlenM, ?_, ?_⟩
  · intro hM
    rw [List.getElem_of_eq hflat hM, List.getElem_zipWith]
    exact updateEntry_of_mismatch _ _ hmis
  · intro j hjS hjU hjM hw hy
    rw [List.getElem_of_eq hflat hjM, List.getElem_zipWith]
    rw [updateEntry_of_match _ _ hw hy, dget_dset_self]

theorem claim_C6_witness :
    ∃ M, merge_level (some dataABC) [fileMismatch] = some M ∧
      (flatten_original_items M).length = (flatten_original_items dataABC).length := by
  obtain ⟨M, h1, h2, _, _⟩ :=
    claim_C6 dataABC [fileMismatch] 1 (by decide) (by decide) (by decide) (by decide)
  exact ⟨M, h1, h2⟩

/-- Claim C4 (counterexample): a reassembled chunk sequence with the right
count but the entries for positions 1 and 2 in swapped order (a failure to
reproduce the source's flattened order) does not stop the merge: the
merger still writes an output for the level, and that output even differs
from the source because the matching position 0 is overwritten.  The claim
that any order/content discrepancy leads to no merge being applied is
therefore false. -/
theorem claim_C4_counterexample :
    (load_updated_flat_list [fileSwapped]).length
        = (flatten_original_items dataABC).length ∧
    (load_updated_flat_list [fileSwapped]).map (fun d => dget d "word")
        ≠ (flatten_original_items dataABC).map (fun d => dget d "word") ∧
    merge_level (some dataABC) [fileSwapped] = some mergedSwapped ∧
    mergedSwapped ≠ dataABC := by decide

/-- Claim C4 (amended): only a count discrepancy prevents the merge: when
the reassembled sequence's length differs from the source's flattened
length, no output is produced for the level; when the lengths are equal,
a merged output is produced even if the entry order or content is not
reproduced, and each position whose `word` or `yomikata` differ keeps its
original record unchanged. -/
theorem claim_C4_amended (data : Json) (files : List ChunkFile) :
    ((flatten_original_items data).length
        ≠ (load_updated_flat_list files).length →
      merge_level (some data) files = none) ∧
    ((flatten_original_items data).length
        = (load_updated_flat_list files).length →
      ∃ M, merge_level (some data) files = some M ∧
        (flatten_original_items M).length = (flatten_original_items data).length ∧
        ∀ i (hS : i < (flatten_original_items data).length)
            (hU : i < (load_updated_flat_list files).length)
            (hM : i < (flatten_original_items M).length),
          (dget (flatten_original_items data)[i] "word"
              ≠ dget (load_updated_flat_list files)[i] "word" ∨
            dget (flatten_original_items data)[i] "yomikata"
              ≠ dget (load_updated_flat_list files)[i] "yomikata") →
          (flatten_original_items M)[i] = (flatten_original_items data)[i]) := by
  refine ⟨merge_level_of_ne data files, ?_⟩
  intro hlen
  have hflat := flatten_mergeNested data (load_updated_flat_list files) (le_of_eq hlen)
  have hlenM : (flatten_original_items
      (mergeNested data (load_updated_flat_list files))).length
      = (flatten_original_items data).length := by
    rw [hflat, List.length_zipWith]
    omega
  refine ⟨mergeNested data (load_updated_flat_list files),
    merge_level_of_eq data files hlen, hlenM, ?_⟩
  intro i hS hU hM hmis
  rw [List.getElem_of_eq hflat hM, List.getElem_zipWith]
  exact updateEntry_of_mismatch _ _ hmis

theorem claim_C4_amended_witness : merge_level (some dataABC) [] = none :=
  (claim_C4_amended dataABC []).1 (by decide)

/-- Claim C7: splitting a well-formed source document (every record carries
the three semantic fields, `§6` of the specification) and merging back the
unedited chunk files reproduces the source document exactly: every record
field for field, and the whole nesting structure. -/
theorem claim_C7 (data : Json) (level chunk_size : Nat) (hpos : 0 < chunk_size)
    (hwf : WellFormedData data) :
    merge_level (some data) (process_level level (some data) chunk_size)
      = some data := by
  have hload := load_process level chunk_size data hpos
  have hlen : (flatten_original_items data).length
      = (load_updated_flat_list (process_level level (some data) chunk_size)).length := by
    rw [hload, flatten_and_extract_eq, List.length_map]
  rw [merge_level_of_eq data _ hlen, hload, flatten_and_extract_eq]
  rw [mergeNested_trim data hwf]

theorem claim_C7_witness :
    WellFormedData dataABC ∧
    merge_level (some dataABC) (process_level 1 (some dataABC) 120) = some dataABC :=
  ⟨by decide, claim_C7 dataABC 1 120 (by decide) (by decide)⟩

/-- Claim C9: for chunk files named `n<level>_<index>` with positive
integer indices, the merger orders them by the integer parsed from the
name — the sorted list is ascending in that index and a permutation of the
input, and the reassembled sequence concatenates contents in that order —
and the order is numeric, not lexicographic: the file with index 10 sorts
after index 9 even though it sorts between index 1 and index 2 as a
string. -/
theorem claim_C9 (level : Nat) (files : List ChunkFile) (idx : ChunkFile → Nat)
    (hnames : ∀ f ∈ files, f.stem = mkStem level (idx f) ∧ 0 < idx f) :
    (sortChunkFiles files).Pairwise (fun a b => idx a ≤ idx b) ∧
    (sortChunkFiles files).Perm files ∧
    load_updated_flat_list files = ((sortChunkFiles files).map chunkItems).flatten ∧
    sortChunkFiles [⟨mkStem 1 1, none⟩, ⟨mkStem 1 10, none⟩, ⟨mkStem 1 9, none⟩]
      = [⟨mkStem 1 1, none⟩, ⟨mkStem 1 9, none⟩, ⟨mkStem 1 10, none⟩] := by
  have hperm := sortChunkFiles_perm files
  refine ⟨?_, hperm, rfl, by decide⟩
  have hsorted : List.Pairwise chunkLE (sortChunkFiles files) :=
    sortChunkFiles_sorted files
  apply List.Pairwise.imp_of_mem ?_ hsorted
  intro a b ha hb hab
  have ha2 := hnames a (hperm.mem_iff.mp ha)
  have hb2 := hnames b (hperm.mem_iff.mp hb)
  unfold chunkLE at hab
  rw [file_index_of_stem a level (idx a) ha2.1,
    file_index_of_stem b level (idx b) hb2.1] at hab
  exact_mod_cast hab

theorem claim_C9_witness :
    (sortChunkFiles [⟨mkStem 1 2, none⟩, ⟨mkStem 1 1, none⟩]).Perm
      [⟨mkStem 1 2, none⟩, ⟨mkStem 1 1, none⟩] :=
  (claim_C9 1 [⟨mkStem 1 2, none⟩, ⟨mkStem 1 1, none⟩]
    (fun f => (file_index f).toNat) (by decide)).2.1

/-- Claim C10: a chunk file matching the level's glob pattern whose stem
segment after the first underscore is not a parsable integer gets sort key
0, so it is ordered before every well-formed chunk file (whose indices
start at 1) and its contents are concatenated first into the reassembled
sequence instead of being rejected. -/
theorem claim_C10 (files : List ChunkFile) (f : ChunkFile) (hf : f ∈ files)
    (hseg : ∃ seg, (splitOnUnderscore f.stem)[1]? = some seg ∧ parseInt? seg = none)
    (hothers : ∀ g ∈ files, g ≠ f → 1 ≤ file_index g) :
    file_index f = 0 ∧
    ∃ rest, sortChunkFiles files = f :: rest ∧
      load_updated_flat_list files
        = chunkItems f ++ (rest.map chunkItems).flatten := by
  obtain ⟨seg, hseg1, hseg2⟩ := hseg
  have hidx : file_index f = 0 := by
    simp [file_index, hseg1, hseg2]
  refine ⟨hidx, ?_⟩
  have hsorted := sortChunkFiles_sorted files
  have hperm := sortChunkFiles_perm files
  rcases hrep : sortChunkFiles files with _ | ⟨h0, rest⟩
  · exfalso
    rw [hrep] at hperm
    exact absurd (hperm.symm.mem_iff.mp hf) (List.not_mem_nil f)
  · have hmem : f ∈ h0 :: rest := by
      rw [← hrep]
      exact hperm.mem_iff.mpr hf
    have hh0 : h0 = f := by
      rcases List.mem_cons.mp hmem with he | hrest2
      · exact he.symm
      · by_contra hne
        have hh0mem : h0 ∈ files := by
          apply hperm.mem_iff.mp
          rw [hrep]
          exact List.mem_cons_self h0 rest
        have h1le : (1 : Int) ≤ file_index h0 := hothers h0 hh0mem hne
        rw [hrep] at hsorted
        have hle : chunkLE h0 f := (List.sorted_cons.mp hsorted).1 f hrest2
        unfold chunkLE at hle
        rw [hidx] at hle
        omega
    subst hh0
    refine ⟨rest, rfl, ?_⟩
    unfold load_updated_flat_list
    rw [hrep]
    rfl

theorem claim_C10_witness :
    file_index fileBadName = 0 ∧
    ∃ rest, sortChunkFiles [fileGood, fileBadName] = fileBadName :: rest ∧
      load_updated_flat_list [fileGood, fileBadName]
        = chunkItems fileBadName ++ (rest.map chunkItems).flatten :=
  claim_C10 [fileGood, fileBadName] fileBadName (by decide)
    ⟨['x'], by decide, by decide⟩ (by decide)
